import Mathlib

/-!
Verification of the `eco-shipment-optimizer` repository (`src/main.py`).

The script defines a class `EcoShipmentOptimizer` holding a directed
`networkx` graph.  `add_route` stores an edge with derived attributes
`emission = emission_factor * distance` and `cost = cost * distance`;
`calculate_min_emission_path` / `calculate_min_cost_path` call
`nx.shortest_path` / `nx.shortest_path_length` with the corresponding
edge attribute as the weight, catching `nx.NetworkXNoPath` and turning it
into the sentinel `([], float('inf'))`; `optimize_load` sorts the demands
descending and packs them into vehicle loads with a single running-bin
greedy pass.

Numbers are embedded as rationals (`ℚ`): the Python demo only ever
manipulates decimal literals and their sums/products, which float
arithmetic represents the same way the rationals do for the magnitudes
involved; `float('inf')` becomes `⊤ : WithTop ℚ`.
-/

namespace EcoShipment

/-- One stored edge of the `networkx` digraph.  `add_edge(source, target,
distance=d, emission=e, cost=c)` keys the edge by `(source, target)` and
stores the three scalar attributes. -/
structure Edge where
  source : String
  target : String
  distance : ℚ
  emission : ℚ
  cost : ℚ
deriving DecidableEq

/-- The graph state: the list of stored edges (insertion order kept,
at most one edge per `(source, target)` pair, as in `nx.DiGraph`). -/
abbrev Graph := List Edge

/-- `EcoShipmentOptimizer.add_route` (src/main.py:20-29):
`self.graph.add_edge(source, target, distance=distance,
emission=emission_factor * distance, cost=cost * distance)`.
`add_edge` overwrites an existing `(source, target)` edge. -/
def add_route (g : Graph) (source target : String)
    (distance emission_factor cost : ℚ) : Graph :=
  (g.filter (fun e => !(e.source == source && e.target == target))) ++
    [⟨source, target, distance, emission_factor * distance, cost * distance⟩]

/-- Look up the edge from `a` to `b`, as `networkx` adjacency lookup. -/
def findEdge (g : Graph) (a b : String) : Option Edge :=
  g.find? (fun e => e.source == a && e.target == b)

/-- Whether the digraph has an edge from `a` to `b`. -/
def hasEdge (g : Graph) (a b : String) : Bool :=
  (findEdge g a b).isSome

/-- The weight attribute `w` of the edge from `a` to `b` (0 when absent;
it is only ever read along existing edges). -/
def edgeWeight (g : Graph) (w : Edge → ℚ) (a b : String) : ℚ :=
  match findEdge g a b with
  | some e => w e
  | none => 0

/-- Total weight of a node sequence: the sum of the weights of its
consecutive edges — what `nx.shortest_path_length` returns for a path. -/
def pathWeight (g : Graph) (w : Edge → ℚ) : List String → ℚ
  | [] => 0
  | [_] => 0
  | a :: b :: rest => edgeWeight g w a b + pathWeight g w (b :: rest)

/-- The out-neighbours of `s`, in edge insertion order. -/
def successors (g : Graph) (s : String) : List String :=
  (g.filter (fun e => e.source == s)).map Edge.target

/-- The node set of the digraph (every endpoint of a stored edge), as
`networkx` materialises nodes when edges are added. -/
def nodes (g : Graph) : List String :=
  (g.map Edge.source ++ g.map Edge.target).dedup

/-- `p` is a walk of the digraph from `s` to `t`: it starts at `s`, ends
at `t`, and steps only along stored edges. -/
inductive Walk (g : Graph) : String → String → List String → Prop
  | nil (s : String) : Walk g s s [s]
  | cons {s v t : String} {p : List String} :
      hasEdge g s v = true → Walk g v t p → Walk g s t (s :: p)

/-- `t` is reachable from `s` in the digraph (both being graph nodes;
graph-theoretic reachability). -/
inductive Reachable (g : Graph) : String → String → Prop
  | refl {s : String} : s ∈ nodes g → Reachable g s s
  | step {s v t : String} :
      hasEdge g s v = true → Reachable g v t → Reachable g s t

/-- Fuel-indexed enumeration of the simple paths from `s` to `t` whose
intermediate nodes are drawn (without repetition) from `allowed`.  The
fuel only makes the recursion structural; with fuel above
`allowed.length` it never runs out. -/
def pathsAux (g : Graph) (t : String) : Nat → List String → String → List (List String)
  | 0, _, _ => []
  | fuel + 1, allowed, s =>
    if s = t then [[s]]
    else ((successors g s).filter (fun v => decide (v ∈ allowed))).flatMap
      (fun v => (pathsAux g t fuel (allowed.erase v) v).map (fun p => s :: p))

/-- All simple paths of the digraph from `s` to `t`. -/
def simplePaths (g : Graph) (s t : String) : List (List String) :=
  pathsAux g t (((nodes g).erase s).length + 1) ((nodes g).erase s) s

/-- First element of `x :: xs` minimising `f` (first wins on ties). -/
def pickMin {α : Type} (f : α → ℚ) (x : α) (xs : List α) : α :=
  xs.foldl (fun b a => if f a < f b then a else b) x

/-- Element of a list minimising `f`, if the list is non-empty. -/
def argmin? {α : Type} (f : α → ℚ) : List α → Option α
  | [] => none
  | x :: xs => some (pickMin f x xs)

/-- Model of the `try` body of the two query methods once both
endpoints exist in the graph: `nx.shortest_path(graph, s, t, weight=w)`
followed by `nx.shortest_path_length(graph, s, t, weight=w)` — Dijkstra
over non-negative weights, i.e. a path of minimum total weight `w` from
`s` to `t` together with that minimum total, with `nx.NetworkXNoPath`
(no path between the two nodes) already converted by the `except`
clause into the sentinel `([], float('inf'))`. -/
def min_weight_path (g : Graph) (w : Edge → ℚ) (s t : String) :
    List String × WithTop ℚ :=
  match argmin? (pathWeight g w) (simplePaths g s t) with
  | none => ([], ⊤)
  | some p => (p, (pathWeight g w p : WithTop ℚ))

/-- The one `networkx` failure the query methods do not catch: when the
source or the target is not a node of the graph, `nx.shortest_path`
(weighted, via Dijkstra) raises `nx.NodeNotFound`, which is not a
`nx.NetworkXNoPath` and so escapes the `except` clause to the caller. -/
inductive NxError where
  | nodeNotFound : NxError
deriving DecidableEq

/-- `EcoShipmentOptimizer.calculate_min_emission_path` (src/main.py:31-41):
runs the two shortest-path queries with `weight='emission'` inside
`try ... except nx.NetworkXNoPath: return [], float('inf')`.  A source
or a target absent from the graph makes `networkx` raise
`nx.NodeNotFound` ("If source or target is not in G"), which this
method does not catch (`Except.error`); otherwise it returns normally
(`Except.ok`). -/
def calculate_min_emission_path (g : Graph) (s t : String) :
    Except NxError (List String × WithTop ℚ) :=
  if s ∈ nodes g ∧ t ∈ nodes g then
    Except.ok (min_weight_path g Edge.emission s t)
  else Except.error NxError.nodeNotFound

/-- `EcoShipmentOptimizer.calculate_min_cost_path` (src/main.py:43-53):
identical to the emission query but with `weight='cost'`. -/
def calculate_min_cost_path (g : Graph) (s t : String) :
    Except NxError (List String × WithTop ℚ) :=
  if s ∈ nodes g ∧ t ∈ nodes g then
    Except.ok (min_weight_path g Edge.cost s t)
  else Except.error NxError.nodeNotFound

/-- The `for demand in demands:` loop of `optimize_load`
(src/main.py:65-73), with the trailing
`if current_vehicle_load: load_plans.append(current_vehicle_load)`. -/
def optimize_load_go (vehicle_capacity : ℚ) :
    List ℚ → List (List ℚ) → List ℚ → List (List ℚ)
  | [], load_plans, current =>
    if current.isEmpty then load_plans else load_plans ++ [current]
  | demand :: demands, load_plans, current =>
    if current.sum + demand ≤ vehicle_capacity then
      optimize_load_go vehicle_capacity demands load_plans (current ++ [demand])
    else
      optimize_load_go vehicle_capacity demands (load_plans ++ [current]) [demand]

/-- `EcoShipmentOptimizer.optimize_load` (src/main.py:55-75):
`demands = sorted(demands, reverse=True)` then the greedy
single-running-bin packing loop. -/
def optimize_load (demands : List ℚ) (vehicle_capacity : ℚ) : List (List ℚ) :=
  optimize_load_go vehicle_capacity
    (List.insertionSort (fun a b => a ≥ b) demands) [] []

/-- The graph built by `main()` (src/main.py:82-85). -/
def exampleGraph : Graph :=
  add_route (add_route (add_route (add_route [] "A" "B" 100 0.1 1.0)
    "B" "C" 50 0.2 0.5) "A" "C" 140 0.15 0.85) "C" "D" 60 0.18 0.9

/-- The operations a caller of `EcoShipmentOptimizer` can perform.  The
script is single-threaded, so an execution is a sequence of these. -/
inductive Op where
  | route (source target : String) (distance emission_factor cost : ℚ)
  | emissionQuery (source target : String)
  | costQuery (source target : String)
  | loadQuery (demands : List ℚ) (vehicle_capacity : ℚ)

/-- What one operation hands back to the caller. -/
inductive Output where
  | done
  | pathResult (r : Except NxError (List String × WithTop ℚ))
  | plans (ps : List (List ℚ))

/-- One method call on the optimizer object: the state is `self.graph`
(the only instance attribute); the call returns the next state and the
value handed to the caller.  Only `add_route` writes to `self.graph`. -/
def step (g : Graph) : Op → Graph × Output
  | Op.route s t d ef c => (add_route g s t d ef c, Output.done)
  | Op.emissionQuery s t => (g, Output.pathResult (calculate_min_emission_path g s t))
  | Op.costQuery s t => (g, Output.pathResult (calculate_min_cost_path g s t))
  | Op.loadQuery d c => (g, Output.plans (optimize_load d c))

/-- Run a sequence of method calls, returning the final graph state. -/
def run (g : Graph) : List Op → Graph
  | [] => g
  | op :: ops => run (step g op).1 ops

end EcoShipment


namespace EcoShipment

/-! ## Load-planner lemmas -/

/-- Flattening the planner's output lists the sorted demands in order:
every demand entering the loop ends up, in order, in exactly one bin. -/
theorem optimize_load_go_flatten (cap : ℚ) :
    ∀ (ds : List ℚ) (plans : List (List ℚ)) (current : List ℚ),
    (optimize_load_go cap ds plans current).flatten =
      plans.flatten ++ current ++ ds := by
  intro ds
  induction ds with
  | nil =>
    intro plans current
    cases current with
    | nil => simp [optimize_load_go]
    | cons a l => simp [optimize_load_go]
  | cons d ds ih =>
    intro plans current
    by_cases h : current.sum + d ≤ cap
    · simp only [optimize_load_go, if_pos h, ih]
      simp
    · simp only [optimize_load_go, if_neg h, ih]
      simp

/-- Capacity invariant of the packing loop: every bin it ever emits
either fits, or is a one-demand bin whose demand alone exceeds the
capacity. -/
theorem optimize_load_go_capacity (cap : ℚ) :
    ∀ (ds : List ℚ) (plans : List (List ℚ)) (current : List ℚ),
    (∀ P ∈ plans, P.sum ≤ cap ∨ ∃ d, P = [d] ∧ cap < d) →
    (current.sum ≤ cap ∨ ∃ d, current = [d]) →
    ∀ P ∈ optimize_load_go cap ds plans current,
      P.sum ≤ cap ∨ ∃ d, P = [d] ∧ cap < d := by
  have emit : ∀ current : List ℚ, (current.sum ≤ cap ∨ ∃ d, current = [d]) →
      current.sum ≤ cap ∨ ∃ d, current = [d] ∧ cap < d := by
    intro current hc
    rcases hc with hle | ⟨d, rfl⟩
    · exact Or.inl hle
    · rcases le_or_lt d cap with hd | hd
      · exact Or.inl (by simpa using hd)
      · exact Or.inr ⟨d, rfl, hd⟩
  intro ds
  induction ds with
  | nil =>
    intro plans current hp hc P hP
    cases current with
    | nil => exact hp P (by simpa [optimize_load_go] using hP)
    | cons a l =>
      simp only [optimize_load_go, List.isEmpty_cons] at hP
      rcases List.mem_append.1 hP with h | h
      · exact hp P h
      · rcases List.mem_singleton.1 h with rfl
        exact emit _ hc
  | cons d ds ih =>
    intro plans current hp hc P hP
    by_cases h : current.sum + d ≤ cap
    · refine ih plans (current ++ [d]) hp (Or.inl ?_) P ?_
      · simpa using h
      · simpa only [optimize_load_go, if_pos h] using hP
    · refine ih (plans ++ [current]) [d] ?_ (Or.inr ⟨d, rfl⟩) P ?_
      · intro Q hQ
        rcases List.mem_append.1 hQ with hq | hq
        · exact hp Q hq
        · rcases List.mem_singleton.1 hq with rfl
          exact emit _ hc
      · simpa only [optimize_load_go, if_neg h] using hP

/-- The flattened planner output is exactly the demand list sorted in
descending order. -/
theorem optimize_load_flatten (demands : List ℚ) (cap : ℚ) :
    (optimize_load demands cap).flatten =
      List.insertionSort (fun a b => a ≥ b) demands := by
  rw [optimize_load, optimize_load_go_flatten]
  simp

end EcoShipment

namespace EcoShipment

/-! ## Claim theorems: load planner -/

/-- C2 (counterexample): for `demands=[120]` and `capacity=100` the
planner does NOT return the single plan `[[120]]` — on the first
iteration `sum([]) + 120 > 100` closes the still-empty current bin, so a
spurious empty plan is emitted first. -/
theorem c2_counterexample : optimize_load [120] 100 ≠ [[120]] := by
  norm_num [optimize_load, optimize_load_go, List.insertionSort, List.orderedInsert]

/-- C2 (amended): for `demands=[120]` and `capacity=100` the planner
returns two plans, `[[], [120]]`: an empty plan followed by the
over-capacity single-demand plan. -/
theorem c2_amended : optimize_load [120] 100 = [[], [120]] := by
  norm_num [optimize_load, optimize_load_go, List.insertionSort, List.orderedInsert]

/-- C3: for every non-empty demand list and positive capacity, every
emitted load plan sums to at most the capacity, except that a plan may
exceed it only when it is a single-demand plan whose demand itself
exceeds the capacity. -/
theorem c3_capacity (demands : List ℚ) (cap : ℚ) (hcap : 0 < cap)
    (hne : demands ≠ []) :
    ∀ P ∈ optimize_load demands cap, P.sum ≤ cap ∨ ∃ d, P = [d] ∧ cap < d :=
  optimize_load_go_capacity cap _ [] []
    (fun P hP => absurd hP (List.not_mem_nil P))
    (Or.inl (by simpa using hcap.le))

theorem c3_capacity_witness :
    (0 : ℚ) < 100 ∧ ([30, 40, 20, 50, 30] : List ℚ) ≠ [] ∧
      ∀ P ∈ optimize_load [30, 40, 20, 50, 30] 100,
        P.sum ≤ 100 ∨ ∃ d, P = [d] ∧ 100 < d :=
  ⟨by norm_num, by simp,
    c3_capacity [30, 40, 20, 50, 30] 100 (by norm_num) (by simp)⟩

/-- C4: the multiset of demands across all returned load plans is
exactly the multiset of input demands — nothing lost, nothing
duplicated. -/
theorem c4_multiset (demands : List ℚ) (cap : ℚ) (hcap : 0 < cap) :
    (↑(optimize_load demands cap).flatten : Multiset ℚ) = ↑demands := by
  rw [Multiset.coe_eq_coe, optimize_load_flatten]
  exact List.perm_insertionSort _ demands

theorem c4_multiset_witness :
    (0 : ℚ) < 100 ∧
      (↑(optimize_load [30, 40, 20, 50, 30] 100).flatten : Multiset ℚ) =
        ↑([30, 40, 20, 50, 30] : List ℚ) :=
  ⟨by norm_num, c4_multiset [30, 40, 20, 50, 30] 100 (by norm_num)⟩

/-- C7: on the demand list `[50,40,30,30,20]` — or any permutation of
it, since the planner sorts first — with capacity 100, the planner
returns exactly `[[50,40],[30,30,20]]`. -/
theorem c7_scenario2 (l : List ℚ) (h : l.Perm [50, 40, 30, 30, 20]) :
    optimize_load l 100 = [[50, 40], [30, 30, 20]] := by
  have hs : List.insertionSort (fun a b => a ≥ b) l = [50, 40, 30, 30, 20] :=
    List.eq_of_perm_of_sorted ((List.perm_insertionSort _ l).trans h)
      (List.sorted_insertionSort _ l) (by decide)
  rw [optimize_load, hs]
  norm_num [optimize_load_go]

theorem c7_scenario2_witness :
    List.Perm ([30, 40, 20, 50, 30] : List ℚ) [50, 40, 30, 30, 20] ∧
      optimize_load [30, 40, 20, 50, 30] 100 = [[50, 40], [30, 30, 20]] :=
  ⟨by decide, c7_scenario2 [30, 40, 20, 50, 30] (by decide)⟩

/-- C9: the empty demand list yields no load plans (the final
`if current_vehicle_load:` guard keeps the empty running bin out). -/
theorem c9_empty (cap : ℚ) (hcap : 0 < cap) : optimize_load [] cap = [] := rfl

theorem c9_empty_witness : (0 : ℚ) < 100 ∧ optimize_load [] 100 = [] :=
  ⟨by norm_num, c9_empty 100 (by norm_num)⟩

/-- C10: concatenating the returned plans in order gives the input
demands sorted in descending order — in particular the concatenation is
non-increasing within and across plans. -/
theorem c10_concat (demands : List ℚ) (cap : ℚ) (hcap : 0 < cap) :
    (optimize_load demands cap).flatten =
      List.insertionSort (fun a b => a ≥ b) demands ∧
    List.Sorted (fun a b : ℚ => a ≥ b) (optimize_load demands cap).flatten := by
  refine ⟨optimize_load_flatten demands cap, ?_⟩
  rw [optimize_load_flatten]
  exact List.sorted_insertionSort _ demands

theorem c10_concat_witness :
    (0 : ℚ) < 100 ∧
      ((optimize_load [30, 40, 20, 50, 30] 100).flatten =
        List.insertionSort (fun a b => a ≥ b) [30, 40, 20, 50, 30] ∧
      List.Sorted (fun a b : ℚ => a ≥ b)
        (optimize_load [30, 40, 20, 50, 30] 100).flatten) :=
  ⟨by norm_num, c10_concat [30, 40, 20, 50, 30] 100 (by norm_num)⟩

/-- C8: the path queries never change the graph state, and the load
planner's output is a function of its arguments alone — the same
demands and capacity give the same plans no matter which graph the
object holds or which calls were made before. -/
theorem c8_frame :
    (∀ (g : Graph) (s t : String), (step g (Op.emissionQuery s t)).1 = g) ∧
    (∀ (g : Graph) (s t : String), (step g (Op.costQuery s t)).1 = g) ∧
    (∀ (g g' : Graph) (hist hist' : List Op) (demands : List ℚ) (cap : ℚ),
      (step (run g hist) (Op.loadQuery demands cap)).2 =
        (step (run g' hist') (Op.loadQuery demands cap)).2) :=
  ⟨fun _ _ _ => rfl, fun _ _ _ => rfl, fun _ _ _ _ _ _ => rfl⟩

end EcoShipment

namespace EcoShipment

/-! ## Basic graph lemmas -/

theorem hasEdge_iff {g : Graph} {a b : String} :
    hasEdge g a b = true ↔ ∃ e ∈ g, e.source = a ∧ e.target = b := by
  simp [hasEdge, findEdge, List.find?_isSome, Bool.and_eq_true, beq_iff_eq]

theorem mem_successors {g : Graph} {s v : String} :
    v ∈ successors g s ↔ ∃ e ∈ g, e.source = s ∧ e.target = v := by
  constructor
  · intro hv
    rcases List.mem_map.1 hv with ⟨e, he, rfl⟩
    rcases List.mem_filter.1 he with ⟨heg, hsrc⟩
    exact ⟨e, heg, beq_iff_eq.1 hsrc, rfl⟩
  · rintro ⟨e, he, rfl, rfl⟩
    exact List.mem_map.2 ⟨e, List.mem_filter.2 ⟨he, beq_iff_eq.2 rfl⟩, rfl⟩

theorem hasEdge_iff_mem_successors {g : Graph} {s v : String} :
    hasEdge g s v = true ↔ v ∈ successors g s :=
  hasEdge_iff.trans mem_successors.symm

theorem source_mem_nodes {g : Graph} {e : Edge} (he : e ∈ g) :
    e.source ∈ nodes g :=
  List.mem_dedup.2 (List.mem_append.2 (Or.inl (List.mem_map.2 ⟨e, he, rfl⟩)))

theorem target_mem_nodes {g : Graph} {e : Edge} (he : e ∈ g) :
    e.target ∈ nodes g :=
  List.mem_dedup.2 (List.mem_append.2 (Or.inr (List.mem_map.2 ⟨e, he, rfl⟩)))

theorem edgeWeight_nonneg {g : Graph} {w : Edge → ℚ}
    (hnn : ∀ e ∈ g, 0 ≤ w e) (a b : String) : 0 ≤ edgeWeight g w a b := by
  rw [edgeWeight]
  cases hfind : findEdge g a b with
  | none => exact le_refl 0
  | some e => exact hnn e (List.mem_of_find?_eq_some hfind)

theorem pathWeight_nonneg {g : Graph} {w : Edge → ℚ}
    (hnn : ∀ e ∈ g, 0 ≤ w e) : ∀ p : List String, 0 ≤ pathWeight g w p := by
  intro p
  induction p with
  | nil => exact le_refl 0
  | cons a rest ih =>
    cases rest with
    | nil => exact le_refl 0
    | cons b rest =>
      rw [pathWeight]
      exact add_nonneg (edgeWeight_nonneg hnn a b) ih

theorem pathWeight_append (g : Graph) (w : Edge → ℚ) :
    ∀ (xs : List String) (y : String) (ys : List String),
    pathWeight g w (xs ++ y :: ys) =
      pathWeight g w (xs ++ [y]) + pathWeight g w (y :: ys) := by
  intro xs
  induction xs with
  | nil => intro y ys; simp [pathWeight]
  | cons a xs ih =>
    intro y ys
    cases xs with
    | nil => simp [pathWeight]
    | cons b xs =>
      have hl : (a :: b :: xs) ++ y :: ys = a :: ((b :: xs) ++ y :: ys) := rfl
      have hr : (a :: b :: xs) ++ [y] = a :: ((b :: xs) ++ [y]) := rfl
      rw [hl, hr]
      rw [show pathWeight g w (a :: ((b :: xs) ++ y :: ys)) =
        edgeWeight g w a b + pathWeight g w ((b :: xs) ++ y :: ys) from rfl]
      rw [show pathWeight g w (a :: ((b :: xs) ++ [y])) =
        edgeWeight g w a b + pathWeight g w ((b :: xs) ++ [y]) from rfl]
      rw [ih y ys, add_assoc]

/-! ## Walk lemmas -/

theorem Walk.head_eq {g : Graph} {s t : String} {p : List String}
    (h : Walk g s t p) : ∃ rest, p = s :: rest := by
  cases h with
  | nil => exact ⟨[], rfl⟩
  | cons he hw => exact ⟨_, rfl⟩

theorem Walk.target_mem {g : Graph} {s t : String} {p : List String}
    (h : Walk g s t p) : t ∈ p := by
  induction h with
  | nil => exact List.mem_singleton.2 rfl
  | cons he hw ih => exact List.mem_cons_of_mem _ ih

theorem Walk.tail_targets {g : Graph} {s t : String} {p : List String}
    (h : Walk g s t p) : ∀ x ∈ p.tail, x ∈ g.map Edge.target := by
  induction h with
  | nil => intro x hx; simp at hx
  | cons he hw ih =>
    intro x hx
    rcases hw.head_eq with ⟨rest, rfl⟩
    rcases List.mem_cons.1 hx with rfl | hx
    · rcases hasEdge_iff.1 he with ⟨e, heg, _, het⟩
      exact List.mem_map.2 ⟨e, heg, het⟩
    · exact ih x hx

/-- Inversion of a walk whose node list has at least two elements. -/
theorem walk_cons_cons {g : Graph} {s t a b : String} {rest : List String}
    (h : Walk g s t (a :: b :: rest)) :
    s = a ∧ hasEdge g a b = true ∧ Walk g b t (b :: rest) := by
  cases h with
  | cons he hw =>
    rcases hw.head_eq with ⟨r2, heq⟩
    injection heq with h1 _
    subst h1
    exact ⟨rfl, he, hw⟩

theorem walk_split {g : Graph} {t v : String} {ys : List String} :
    ∀ (xs : List String) (s : String), Walk g s t (xs ++ v :: ys) →
    Walk g s v (xs ++ [v]) ∧ Walk g v t (v :: ys) := by
  intro xs
  induction xs with
  | nil =>
    intro s h
    rcases h.head_eq with ⟨rest, heq⟩
    injection heq with h1 _
    subst h1
    exact ⟨Walk.nil _, h⟩
  | cons a xs ih =>
    intro s h
    cases xs with
    | nil =>
      rcases walk_cons_cons h with ⟨rfl, he, hw⟩
      exact ⟨Walk.cons he (Walk.nil v), hw⟩
    | cons b xs =>
      rcases walk_cons_cons h with ⟨rfl, he, hw⟩
      rcases ih b hw with ⟨h1, h2⟩
      exact ⟨Walk.cons he h1, h2⟩

theorem walk_merge {g : Graph} {t v : String} {ys : List String}
    (h2 : Walk g v t (v :: ys)) :
    ∀ (xs : List String) (s : String), Walk g s v (xs ++ [v]) →
    Walk g s t (xs ++ v :: ys) := by
  intro xs
  induction xs with
  | nil =>
    intro s h1
    rcases h1.head_eq with ⟨rest, heq⟩
    injection heq with h1' _
    subst h1'
    exact h2
  | cons a xs ih =>
    intro s h1
    cases xs with
    | nil =>
      rcases walk_cons_cons h1 with ⟨rfl, he, _⟩
      exact Walk.cons he h2
    | cons b xs =>
      rcases walk_cons_cons h1 with ⟨rfl, he, hw⟩
      exact Walk.cons he (ih b hw)

/-- A list with a repeated element splits around the two occurrences. -/
theorem not_nodup_split {α : Type} [DecidableEq α] :
    ∀ {p : List α}, ¬ p.Nodup → ∃ a v b c, p = a ++ v :: (b ++ v :: c) := by
  intro p
  induction p with
  | nil => intro h; exact absurd List.nodup_nil h
  | cons x xs ih =>
    intro h
    rw [List.nodup_cons] at h
    by_cases hx : x ∈ xs
    · rcases List.append_of_mem hx with ⟨b, c, rfl⟩
      exact ⟨[], x, b, c, rfl⟩
    · have hxs : ¬ xs.Nodup := fun hn => h ⟨hx, hn⟩
      rcases ih hxs with ⟨a, v, b, c, rfl⟩
      exact ⟨x :: a, v, b, c, rfl⟩

/-- Cycle removal: with non-negative edge weights, every walk admits a
duplicate-free walk between the same endpoints of no greater total
weight.  (Dijkstra's optimum over simple paths is therefore also the
optimum over arbitrary walks.) -/
theorem walk_to_nodup {g : Graph} {w : Edge → ℚ}
    (hnn : ∀ e ∈ g, 0 ≤ w e) :
    ∀ (n : Nat) (p : List String) (s t : String), p.length ≤ n →
    Walk g s t p →
    ∃ q, Walk g s t q ∧ q.Nodup ∧ pathWeight g w q ≤ pathWeight g w p := by
  intro n
  induction n with
  | zero =>
    intro p s t hlen hw
    rcases hw.head_eq with ⟨rest, rfl⟩
    simp at hlen
  | succ n ih =>
    intro p s t hlen hw
    by_cases hnd : p.Nodup
    · exact ⟨p, hw, hnd, le_refl _⟩
    · rcases not_nodup_split hnd with ⟨a, v, b, c, rfl⟩
      have hsplit1 := walk_split a s hw
      rcases hsplit1 with ⟨hav, hrest⟩
      have hrest' : Walk g v t ((v :: b) ++ v :: c) := hrest
      have hsplit2 := walk_split (v :: b) v hrest'
      rcases hsplit2 with ⟨hcyc, htail⟩
      have hshort : Walk g s t (a ++ v :: c) := walk_merge htail a s hav
      have hlen' : (a ++ v :: c).length ≤ n := by
        have h1 : (a ++ v :: (b ++ v :: c)).length =
            a.length + b.length + c.length + 2 := by
          simp only [List.length_append, List.length_cons]
          omega
        have h2 : (a ++ v :: c).length = a.length + c.length + 1 := by
          simp only [List.length_append, List.length_cons]
          omega
        omega
      rcases ih (a ++ v :: c) s t hlen' hshort with ⟨q, hq, hqnd, hqle⟩
      refine ⟨q, hq, hqnd, le_trans hqle ?_⟩
      have e1 : pathWeight g w (a ++ v :: (b ++ v :: c)) =
          pathWeight g w (a ++ [v]) + pathWeight g w (v :: (b ++ v :: c)) :=
        pathWeight_append g w a v (b ++ v :: c)
      have e2 : pathWeight g w (v :: (b ++ v :: c)) =
          pathWeight g w ((v :: b) ++ [v]) + pathWeight g w (v :: c) :=
        pathWeight_append g w (v :: b) v c
      have e3 : pathWeight g w (a ++ v :: c) =
          pathWeight g w (a ++ [v]) + pathWeight g w (v :: c) :=
        pathWeight_append g w a v c
      have hge : 0 ≤ pathWeight g w ((v :: b) ++ [v]) := pathWeight_nonneg hnn _
      rw [e1, e2, e3]
      linarith

/-! ## Soundness and completeness of the simple-path enumeration -/

theorem pathsAux_sound {g : Graph} {t : String} :
    ∀ (fuel : Nat) (allowed : List String) (s : String) (p : List String),
    p ∈ pathsAux g t fuel allowed s → Walk g s t p := by
  intro fuel
  induction fuel with
  | zero => intro allowed s p hp; simp [pathsAux] at hp
  | succ fuel ih =>
    intro allowed s p hp
    rw [pathsAux] at hp
    by_cases hst : s = t
    · rw [if_pos hst] at hp
      rcases List.mem_singleton.1 hp with rfl
      exact hst ▸ Walk.nil s
    · rw [if_neg hst] at hp
      rcases List.mem_flatMap.1 hp with ⟨v, hv, hpv⟩
      rcases List.mem_map.1 hpv with ⟨q, hq, rfl⟩
      have hsucc : v ∈ successors g s := (List.mem_filter.1 hv).1
      exact Walk.cons (hasEdge_iff_mem_successors.2 hsucc) (ih _ v q hq)

theorem pathsAux_complete {g : Graph} {t : String} :
    ∀ (fuel : Nat) (allowed : List String) (s : String) (p : List String),
    Walk g s t p → p.Nodup → (∀ x ∈ p.tail, x ∈ allowed) →
    allowed.length < fuel → p ∈ pathsAux g t fuel allowed s := by
  intro fuel
  induction fuel with
  | zero => intro allowed s p _ _ _ hlen; omega
  | succ fuel ih =>
    intro allowed s p hw hnd hsub hlen
    rw [pathsAux]
    cases hw with
    | nil =>
      rw [if_pos rfl]
      exact List.mem_singleton.2 rfl
    | cons he hw' =>
      rename_i v p'
      have hst : s ≠ t := by
        intro hst
        have ht := hw'.target_mem
        rw [List.nodup_cons] at hnd
        exact hnd.1 (hst ▸ ht)
      rw [if_neg hst]
      rcases hw'.head_eq with ⟨rest, rfl⟩
      have hv_allowed : v ∈ allowed := hsub v (List.mem_cons_self v rest)
      have hv_succ : v ∈ successors g s := hasEdge_iff_mem_successors.1 he
      refine List.mem_flatMap.2 ⟨v, List.mem_filter.2 ⟨hv_succ, ?_⟩, ?_⟩
      · exact decide_eq_true hv_allowed
      · refine List.mem_map.2 ⟨v :: rest, ?_, rfl⟩
        rw [List.nodup_cons] at hnd
        have hnd' := hnd.2
        refine ih (allowed.erase v) v (v :: rest) hw' hnd' ?_ ?_
        · intro x hx
          have hx' : x ∈ (v :: rest).tail := hx
          have hxrest : x ∈ rest := hx'
          have hxa : x ∈ allowed :=
            hsub x (List.mem_cons_of_mem v hxrest)
          have hxv : x ≠ v := by
            rw [List.nodup_cons] at hnd'
            intro hxv
            exact hnd'.1 (hxv ▸ hxrest)
          exact (List.mem_erase_of_ne hxv).2 hxa
        · have := List.length_erase_of_mem hv_allowed
          have hpos : 0 < allowed.length := List.length_pos_of_mem hv_allowed
          omega

/-! ## Reachability and the enumeration -/

theorem walk_reachable {g : Graph} {s t : String} {p : List String}
    (h : Walk g s t p) (hs : s ∈ nodes g) : Reachable g s t := by
  induction h with
  | nil => exact Reachable.refl hs
  | cons he hw ih =>
    rename_i s' v t' p'
    rcases hasEdge_iff.1 he with ⟨e, heg, _, het⟩
    exact Reachable.step he (ih (het ▸ target_mem_nodes heg))

theorem reachable_walk {g : Graph} {s t : String}
    (h : Reachable g s t) : ∃ p, Walk g s t p := by
  induction h with
  | refl _ => exact ⟨[_], Walk.nil _⟩
  | step he _ ih =>
    rcases ih with ⟨p, hp⟩
    exact ⟨_ :: p, Walk.cons he hp⟩

theorem reachable_source_mem {g : Graph} {s t : String}
    (h : Reachable g s t) : s ∈ nodes g := by
  induction h with
  | refl hs => exact hs
  | step he _ _ =>
    rcases hasEdge_iff.1 he with ⟨e, heg, hes, _⟩
    exact hes ▸ source_mem_nodes heg

theorem reachable_target_mem {g : Graph} {s t : String}
    (h : Reachable g s t) : t ∈ nodes g := by
  induction h with
  | refl hs => exact hs
  | step _ _ ih => exact ih

/-- Every duplicate-free walk appears in the enumeration used by the
shortest-path model. -/
theorem mem_simplePaths_of_nodup_walk {g : Graph} {s t : String}
    {q : List String} (hw : Walk g s t q) (hnd : q.Nodup) :
    q ∈ simplePaths g s t := by
  refine pathsAux_complete _ _ s q hw hnd ?_ (Nat.lt_succ_self _)
  intro x hx
  rcases hw.head_eq with ⟨rest, rfl⟩
  have hxr : x ∈ rest := hx
  have hxn : x ∈ nodes g := by
    rcases List.mem_map.1 (hw.tail_targets x hx) with ⟨e, heg, het⟩
    exact het ▸ target_mem_nodes heg
  have hxs : x ≠ s := by
    rw [List.nodup_cons] at hnd
    intro hxs
    exact hnd.1 (hxs ▸ hxr)
  exact (List.mem_erase_of_ne hxs).2 hxn

/-- A reachable target means the enumeration is non-empty. -/
theorem simplePaths_ne_nil_of_reachable {g : Graph} {s t : String}
    (h : Reachable g s t) : simplePaths g s t ≠ [] := by
  rcases reachable_walk h with ⟨p, hp⟩
  rcases walk_to_nodup (w := fun _ => 0) (fun _ _ => le_refl 0)
    p.length p s t (le_refl _) hp with ⟨q, hq, hqnd, _⟩
  exact List.ne_nil_of_mem (mem_simplePaths_of_nodup_walk hq hqnd)

/-- With the source a graph node, an unreachable target means the
enumeration is empty. -/
theorem simplePaths_eq_nil_of_not_reachable {g : Graph} {s t : String}
    (hs : s ∈ nodes g) (h : ¬ Reachable g s t) : simplePaths g s t = [] := by
  by_contra hne
  rcases List.exists_mem_of_ne_nil _ hne with ⟨p, hp⟩
  exact h (walk_reachable (pathsAux_sound _ _ s p hp) hs)

/-! ## The minimum selection -/

theorem pickMin_spec {α : Type} (f : α → ℚ) :
    ∀ (xs : List α) (x : α),
    pickMin f x xs ∈ x :: xs ∧ ∀ y ∈ x :: xs, f (pickMin f x xs) ≤ f y := by
  intro xs
  induction xs with
  | nil =>
    intro x
    refine ⟨List.mem_singleton.2 rfl, ?_⟩
    intro y hy
    rcases List.mem_singleton.1 hy with rfl
    exact le_refl _
  | cons a xs ih =>
    intro x
    have hstep : pickMin f x (a :: xs) =
        pickMin f (if f a < f x then a else x) xs := rfl
    by_cases hfa : f a < f x
    · have h1 : pickMin f x (a :: xs) = pickMin f a xs := by
        rw [hstep, if_pos hfa]
      rcases ih a with ⟨hmem, hle⟩
      constructor
      · rw [h1]
        rcases List.mem_cons.1 hmem with hh | hh
        · rw [hh]
          exact List.mem_cons_of_mem x (List.mem_cons_self a xs)
        · exact List.mem_cons_of_mem x (List.mem_cons_of_mem a hh)
      · intro y hy
        rw [h1]
        rcases List.mem_cons.1 hy with rfl | hy2
        · exact le_trans (hle a (List.mem_cons_self a xs)) (le_of_lt hfa)
        · exact hle y hy2
    · have h1 : pickMin f x (a :: xs) = pickMin f x xs := by
        rw [hstep, if_neg hfa]
      rcases ih x with ⟨hmem, hle⟩
      constructor
      · rw [h1]
        rcases List.mem_cons.1 hmem with hh | hh
        · rw [hh]
          exact List.mem_cons_self x (a :: xs)
        · exact List.mem_cons_of_mem x (List.mem_cons_of_mem a hh)
      · intro y hy
        rw [h1]
        rcases List.mem_cons.1 hy with rfl | hy2
        · exact hle y (List.mem_cons_self y xs)
        · rcases List.mem_cons.1 hy2 with rfl | hy3
          · exact le_trans (hle x (List.mem_cons_self x xs)) (le_of_not_lt hfa)
          · exact hle y (List.mem_cons_of_mem x hy3)

/-- Specification of the shortest-path model on a reachable pair: it
returns a walk from `s` to `t` together with its total weight, minimal
among all walks from `s` to `t` (given non-negative edge weights). -/
theorem min_weight_path_spec {g : Graph} {w : Edge → ℚ} {s t : String}
    (hr : Reachable g s t) (hnn : ∀ e ∈ g, 0 ≤ w e) :
    ∃ p, min_weight_path g w s t = (p, (pathWeight g w p : WithTop ℚ)) ∧
      Walk g s t p ∧
      ∀ q, Walk g s t q → pathWeight g w p ≤ pathWeight g w q := by
  cases hsp : simplePaths g s t with
  | nil => exact absurd hsp (simplePaths_ne_nil_of_reachable hr)
  | cons x xs =>
    have heq : min_weight_path g w s t =
        (pickMin (pathWeight g w) x xs,
          (pathWeight g w (pickMin (pathWeight g w) x xs) : WithTop ℚ)) := by
      rw [min_weight_path, hsp]
      rfl
    rcases pickMin_spec (pathWeight g w) xs x with ⟨hmem, hle⟩
    refine ⟨pickMin (pathWeight g w) x xs, heq, ?_, ?_⟩
    · exact pathsAux_sound _ _ s _ (hsp ▸ hmem)
    · intro q hq
      rcases walk_to_nodup hnn q.length q s t (le_refl _) hq
        with ⟨q', hq', hnd', hle'⟩
      have hq'mem : q' ∈ x :: xs := hsp ▸ mem_simplePaths_of_nodup_walk hq' hnd'
      exact le_trans (hle q' hq'mem) hle'

/-- Every enumerated simple path is a walk. -/
theorem walk_of_mem_simplePaths {g : Graph} {s t : String} {p : List String}
    (hp : p ∈ simplePaths g s t) : Walk g s t p :=
  pathsAux_sound _ _ s p hp

/-! ## Concrete evaluation on the demonstration graph -/

/-- The demonstration graph, with the derived edge attributes
evaluated. -/
theorem exampleGraph_eq :
    exampleGraph =
      [⟨"A", "B", 100, 10, 100⟩, ⟨"B", "C", 50, 10, 25⟩,
        ⟨"A", "C", 140, 21, 119⟩, ⟨"C", "D", 60, 54/5, 54⟩] := by
  norm_num +decide [exampleGraph, add_route]

theorem simplePaths_example :
    simplePaths exampleGraph "A" "D" = [["A", "B", "C", "D"], ["A", "C", "D"]] := by
  decide

theorem emission_ABCD :
    pathWeight exampleGraph Edge.emission ["A", "B", "C", "D"] = 154/5 := by
  norm_num +decide [pathWeight, edgeWeight, findEdge, exampleGraph, add_route]

theorem emission_ACD :
    pathWeight exampleGraph Edge.emission ["A", "C", "D"] = 159/5 := by
  norm_num +decide [pathWeight, edgeWeight, findEdge, exampleGraph, add_route]

/-- The demo's minimum-emission query: the optimum is the three-edge
path `A→B→C→D` of total emission `10 + 10 + 10.8 = 30.8`, strictly
below the `31.8` of `A→C→D`. -/
theorem min_emission_example :
    calculate_min_emission_path exampleGraph "A" "D" =
      Except.ok (["A", "B", "C", "D"], ((154/5 : ℚ) : WithTop ℚ)) := by
  rw [calculate_min_emission_path, if_pos (by decide), min_weight_path,
    simplePaths_example]
  norm_num [argmin?, pickMin, emission_ABCD, emission_ACD]

/-! ## Claim theorems: path queries -/

/-- C1 (counterexample): on the demonstration graph the minimum-emission
query from A to D does NOT return `([A,C,D], 31.8)`: the walk
`[A,B,C,D]` has total emission `30.8 < 31.8`, and the query returns it
instead. -/
theorem c1_counterexample :
    calculate_min_emission_path exampleGraph "A" "D" ≠
      Except.ok (["A", "C", "D"], ((159/5 : ℚ) : WithTop ℚ)) ∧
    Walk exampleGraph "A" "D" ["A", "B", "C", "D"] ∧
    pathWeight exampleGraph Edge.emission ["A", "B", "C", "D"] <
      pathWeight exampleGraph Edge.emission ["A", "C", "D"] := by
  refine ⟨?_, ?_, ?_⟩
  · rw [min_emission_example]
    simp
  · exact Walk.cons (by decide) (Walk.cons (by decide)
      (Walk.cons (by decide) (Walk.nil "D")))
  · rw [emission_ABCD, emission_ACD]
    norm_num

/-- C1 (amended): on the graph of concrete scenario 1 the
minimum-emission query from A to D returns the path `[A,B,C,D]` with
total emission weight `30.8` (= 154/5). -/
theorem c1_amended :
    calculate_min_emission_path exampleGraph "A" "D" =
      Except.ok (["A", "B", "C", "D"], ((154/5 : ℚ) : WithTop ℚ)) :=
  min_emission_example

/-- C5 (counterexample): for a source absent from the graph every
target is unreachable, yet the queries do not return the sentinel — the
uncaught `nx.NodeNotFound` escapes to the caller. -/
theorem c5_counterexample :
    ¬ Reachable exampleGraph "X" "A" ∧
    calculate_min_emission_path exampleGraph "X" "A" =
      Except.error NxError.nodeNotFound ∧
    calculate_min_cost_path exampleGraph "X" "A" =
      Except.error NxError.nodeNotFound := by
  refine ⟨?_, ?_, ?_⟩
  · intro h
    have := reachable_source_mem h
    revert this
    decide
  · rw [calculate_min_emission_path, if_neg (by decide)]
  · rw [calculate_min_cost_path, if_neg (by decide)]

/-- C5 (amended): provided both the source and the target are nodes of
the graph, an unreachable target makes both queries return the sentinel
`([], float('inf'))` without raising; a source or target absent from
the graph instead raises `nx.NodeNotFound` to the caller. -/
theorem c5_amended {g : Graph} {s t : String} (hs : s ∈ nodes g)
    (ht : t ∈ nodes g) (h : ¬ Reachable g s t) :
    calculate_min_emission_path g s t = Except.ok ([], ⊤) ∧
    calculate_min_cost_path g s t = Except.ok ([], ⊤) := by
  have hsp := simplePaths_eq_nil_of_not_reachable hs h
  constructor
  · rw [calculate_min_emission_path, if_pos ⟨hs, ht⟩, min_weight_path, hsp]
    rfl
  · rw [calculate_min_cost_path, if_pos ⟨hs, ht⟩, min_weight_path, hsp]
    rfl

theorem c5_amended_witness :
    ("D" ∈ nodes exampleGraph ∧ "A" ∈ nodes exampleGraph ∧
      ¬ Reachable exampleGraph "D" "A") ∧
    calculate_min_emission_path exampleGraph "D" "A" = Except.ok ([], ⊤) ∧
    calculate_min_cost_path exampleGraph "D" "A" = Except.ok ([], ⊤) :=
  have hnr : ¬ Reachable exampleGraph "D" "A" := fun h =>
    simplePaths_ne_nil_of_reachable h (by decide)
  ⟨⟨by decide, by decide, hnr⟩, c5_amended (by decide) (by decide) hnr⟩

/-- C6: on a reachable pair (with the non-negative edge weights the
data model guarantees), each query returns a path from source to target
together with its total weight, and that weight is no greater than the
weight of any other path between the same endpoints. -/
theorem c6_optimal {g : Graph} {s t : String} (hr : Reachable g s t)
    (hem : ∀ e ∈ g, 0 ≤ e.emission) (hco : ∀ e ∈ g, 0 ≤ e.cost) :
    (∃ p, calculate_min_emission_path g s t =
        Except.ok (p, (pathWeight g Edge.emission p : WithTop ℚ)) ∧
      Walk g s t p ∧ ∀ q, Walk g s t q →
        pathWeight g Edge.emission p ≤ pathWeight g Edge.emission q) ∧
    (∃ p, calculate_min_cost_path g s t =
        Except.ok (p, (pathWeight g Edge.cost p : WithTop ℚ)) ∧
      Walk g s t p ∧ ∀ q, Walk g s t q →
        pathWeight g Edge.cost p ≤ pathWeight g Edge.cost q) := by
  have hs := reachable_source_mem hr
  have ht := reachable_target_mem hr
  constructor
  · rcases min_weight_path_spec hr hem with ⟨p, heq, hw, hmin⟩
    refine ⟨p, ?_, hw, hmin⟩
    rw [calculate_min_emission_path, if_pos ⟨hs, ht⟩, heq]
  · rcases min_weight_path_spec hr hco with ⟨p, heq, hw, hmin⟩
    refine ⟨p, ?_, hw, hmin⟩
    rw [calculate_min_cost_path, if_pos ⟨hs, ht⟩, heq]

theorem c6_optimal_witness :
    (Reachable exampleGraph "A" "D" ∧
      (∀ e ∈ exampleGraph, 0 ≤ e.emission) ∧
      (∀ e ∈ exampleGraph, 0 ≤ e.cost)) ∧
    ((∃ p, calculate_min_emission_path exampleGraph "A" "D" =
        Except.ok (p, (pathWeight exampleGraph Edge.emission p : WithTop ℚ)) ∧
      Walk exampleGraph "A" "D" p ∧ ∀ q, Walk exampleGraph "A" "D" q →
        pathWeight exampleGraph Edge.emission p ≤
          pathWeight exampleGraph Edge.emission q) ∧
    (∃ p, calculate_min_cost_path exampleGraph "A" "D" =
        Except.ok (p, (pathWeight exampleGraph Edge.cost p : WithTop ℚ)) ∧
      Walk exampleGraph "A" "D" p ∧ ∀ q, Walk exampleGraph "A" "D" q →
        pathWeight exampleGraph Edge.cost p ≤
          pathWeight exampleGraph Edge.cost q)) :=
  have hr : Reachable exampleGraph "A" "D" :=
    walk_reachable (walk_of_mem_simplePaths (p := ["A", "C", "D"])
      (by decide)) (by decide)
  have hem : ∀ e ∈ exampleGraph, 0 ≤ e.emission := by
    rw [exampleGraph_eq]
    intro e he
    rcases List.mem_cons.1 he with rfl | he
    · norm_num
    rcases List.mem_cons.1 he with rfl | he
    · norm_num
    rcases List.mem_cons.1 he with rfl | he
    · norm_num
    rcases List.mem_singleton.1 he with rfl
    norm_num
  have hco : ∀ e ∈ exampleGraph, 0 ≤ e.cost := by
    rw [exampleGraph_eq]
    intro e he
    rcases List.mem_cons.1 he with rfl | he
    · norm_num
    rcases List.mem_cons.1 he with rfl | he
    · norm_num
    rcases List.mem_cons.1 he with rfl | he
    · norm_num
    rcases List.mem_singleton.1 he with rfl
    norm_num
  ⟨⟨hr, hem, hco⟩, c6_optimal hr hem hco⟩

end EcoShipment
